import Mathlib

/-
Verification of the pydantic-env configuration parser
(src/pydantic_env/parse.py) against its natural-language specification.

The embedding is shallow:

- A pydantic model class is modelled by the ordered list of its field
  declarations (the model_fields mapping, which preserves declaration
  order).  Each field carries its name (the model_fields key), its
  optional declared alias (FieldInfo.alias), and its annotation, which is
  either a leaf type or a nested sub-schema.
- Python strings are Lean strings; str.upper, startswith, endswith and
  slicing are modelled on the underlying character list (all identifiers
  and variable names involved are ASCII, where Char.toUpper agrees with
  Python's str.upper).
- Python dicts are modelled as association lists in insertion order:
  lookup returns the value of the (unique) matching key, assignment
  updates an existing key in place and appends a fresh key at the end,
  exactly like the insertion-order semantics of Python dicts.
- Fallible code returns Except PyErr.  AttributeError, TypeError,
  KeyError and RuntimeError are the exception kinds the source can
  actually raise; pydantic validation (schema.model_validate) is an
  external collaborator, explicitly out of scope for the spec, so the
  parse pipeline is modelled up to the proto-config handed to it.
-/

/-- Exception kinds raised by the modelled source code.  The RuntimeError
payload models the content of the collision message built in
ConfigParser.var_name_to_path_table: for every duplicated variable name,
the list of schema paths that resolve to it.  Python iterates the
duplicated names as a set, whose order is unspecified; the model fixes
first-occurrence order, and nothing proved below depends on that order. -/
inductive PyErr where
  | attributeError
  | typeError
  | keyError (key : String)
  | runtimeError (ambiguities : List (String × List (List String)))
  deriving DecidableEq, Repr

mutual
/-- A field annotation: either a leaf type (str, int, bool, ...) or a
nested pydantic model (a sub-schema). -/
inductive FType where
  | leaf
  | schema (fields : Fields)
  deriving DecidableEq, Repr

/-- The ordered field declarations of a pydantic model: for each field its
model_fields key (the declared field name), its optional FieldInfo.alias,
and its annotation. -/
inductive Fields where
  | nil
  | cons (name : String) (al : Option String) (ftype : FType) (rest : Fields)
  deriving DecidableEq, Repr
end

/-- A value stored in a proto-config dict: a raw string, Python's None, or
a nested dict. -/
inductive PyVal where
  | vnone
  | vstr (s : String)
  | vdict (entries : List (String × PyVal))
  deriving Repr

/-- The value an entry of the caller-supplied variable dict carries into
the proto-config: None stays None, a string stays the raw string. -/
def pyOfOpt : Option String → PyVal
  | none => .vnone
  | some s => .vstr s

/-- Python dict lookup (d.get(k) / d[k] membership test) on an
insertion-ordered association list. -/
def alGet : List (String × α) → String → Option α
  | [], _ => none
  | (k, v) :: rest, key => if k = key then some v else alGet rest key

/-- Python dict assignment d[k] = v: updates an existing key in place,
appends a fresh key at the end. -/
def alSet : List (String × α) → String → α → List (String × α)
  | [], key, v => [(key, v)]
  | (k, w) :: rest, key, v =>
    if k = key then (key, v) :: rest else (k, w) :: alSet rest key v

/-- Python str.upper on an ASCII string. -/
def pyUpper (s : String) : String :=
  String.mk (s.data.map Char.toUpper)

/-- Python string concatenation, modelling the f-string in
_normalize_var_prefix. -/
def pyConcat (a b : String) : String :=
  String.mk (a.data ++ b.data)

/-- Python s.endswith(t). -/
def pyEndsWith (s t : String) : Bool :=
  t.data.isSuffixOf s.data

/-- Python s.startswith(t). -/
def pyStartsWith (s t : String) : Bool :=
  t.data.isPrefixOf s.data

/-- Python slicing s[n:]. -/
def pyDrop (s : String) (n : Nat) : String :=
  String.mk (s.data.drop n)

/-- Python len(s). -/
def pyLen (s : String) : Nat :=
  s.data.length

/-- _path_to_var_name: join the path segments with underscores, each
segment upper-cased (the source upper-cases each segment and joins the
results, which equals upper-casing the join because the separator has no
case). -/
def path_to_var_name (path : List String) : String :=
  String.mk (List.intercalate ['_'] (path.map (fun s => (pyUpper s).data)))

/-- _normalize_var_prefix: minimally modify a variable-name prefix so that
it ends with an underscore. -/
def normVarPfx (p : String) : String :=
  if pyEndsWith p "_" then p else pyConcat p "_"

/-- _strip_var_prefix: drop len(normalized) leading characters from the
prefixed key. -/
def strip_var_pfx (pfx prefixedKey : String) : String :=
  pyDrop prefixedKey (pyLen (normVarPfx pfx))

/-- _preprocess_var_dict: keep only the entries whose key starts with the
normalized prefix, then strip the prefix from the retained keys.  The
source builds Python dicts by comprehension; since the retained keys are
pairwise distinct and stripping a fixed-length prefix keeps them
distinct, the rebuilt dicts are the corresponding association lists. -/
def preprocess_var_dict (pfx : String) (d : List (String × Option String)) :
    List (String × Option String) :=
  let kept := d.filter (fun kv => pyStartsWith kv.1 (normVarPfx pfx))
  kept.map (fun kv => (strip_var_pfx pfx kv.1, kv.2))

/-- ConfigParser instance state as Python sees it: each attribute either
exists (with its value) or does not exist on the instance.  The class
body declares schema and var_prefix as bare annotations, which create no
attribute, so a fresh instance starts with neither attribute present. -/
structure ConfigParserObj where
  schema_attr : Option Fields
  var_pfx_attr : Option (Option String)
  deriving Repr

/-- ConfigParser.__init__: assigns self.schema = schema, then evaluates
the bare expression self.var_prefix.  Reading an attribute that was never
assigned (and exists neither on the instance nor on the class, the class
body holding only an annotation for it) raises AttributeError. -/
def ConfigParser_init (schema : Fields) (_varPfx : Option String) :
    Except PyErr ConfigParserObj :=
  let obj : ConfigParserObj := { schema_attr := none, var_pfx_attr := none }
  let obj1 := { obj with schema_attr := some schema }
  match obj1.var_pfx_attr with
  | some _ => .ok obj1
  | none => .error .attributeError

/-- ConfigParser._paths, translated as a function of the bound schema (the
self.schema attribute) and the path-prefix accumulator.  The source
iterates self.schema.model_fields in declaration order; for a leaf
annotation it appends path_prefix + [key], and for a sub-schema
annotation it executes self._paths(annotation, prefixed_key), which
passes two positional arguments to a method accepting only one besides
self and therefore raises TypeError at the call site, before any
recursion happens.  The declared alias of a field is never read: the
segment appended is always the model_fields key. -/
def paths_code : Fields → List String → Except PyErr (List (List String))
  | .nil, _ => .ok []
  | .cons n _a t rest, pfxAcc =>
    match t with
    | .schema _ => .error .typeError
    | .leaf => do
      let tail ← paths_code rest pfxAcc
      .ok ((pfxAcc ++ [n]) :: tail)

mutual
/-- Modelled from the spec (section 4.1 Path Enumerator), for comparison
with paths_code: produce the ordered list of leaf field paths in declared
field order, expanding a sub-schema-typed field depth-first immediately
after it is encountered, with a field's alias substituted for its name
throughout. -/
def paths_spec : Fields → List String → List (List String)
  | .nil, _ => []
  | .cons n a t rest, pfxAcc =>
    paths_spec_ty n a t pfxAcc ++ paths_spec rest pfxAcc

/-- One field of the spec-modelled enumerator: a leaf contributes the
extended path, a sub-schema is expanded recursively under the extended
path. -/
def paths_spec_ty (n : String) (a : Option String) (t : FType)
    (pfxAcc : List String) : List (List String) :=
  match t with
  | .leaf => [pfxAcc ++ [Option.getD a n]]
  | .schema fs => paths_spec fs (pfxAcc ++ [Option.getD a n])
end

/-- First-occurrence deduplication, modelling the content of the Python
set of duplicated variable names (set iteration order is unspecified in
Python; the model fixes first-occurrence order). -/
def dedupFirst (seen : List String) : List String → List String
  | [] => []
  | x :: rest =>
    if x ∈ seen then dedupFirst seen rest
    else x :: dedupFirst (x :: seen) rest

/-- ConfigParser.var_name_to_path_table: enumerate the schema paths,
derive a variable name per path, and return the name-to-path dict; if any
variable name is produced by more than one path, raise RuntimeError whose
message enumerates every duplicated name with all schema paths resolving
to it.  When the duplicate check passes the names are pairwise distinct,
so the dict comprehension over the pairs is the association list of the
pairs themselves. -/
def var_name_to_path_table (fields : Fields) :
    Except PyErr (List (String × List String)) := do
  let paths ← paths_code fields []
  let pairs := paths.map (fun p => (path_to_var_name p, p))
  let varNames := pairs.map Prod.fst
  let dupNames := dedupFirst [] (varNames.filter (fun n => 1 < varNames.count n))
  if dupNames = [] then
    .ok pairs
  else
    .error (.runtimeError (dupNames.map (fun n =>
      (n, (pairs.filter (fun pr => pr.1 = n)).map Prod.snd))))

/-- Modelled from the spec (section 4.3 Path Table Builder), for
comparison with var_name_to_path_table: same name derivation and
ambiguity policy, but over the spec-modelled path enumerator. -/
def table_spec (fields : Fields) :
    Except PyErr (List (String × List String)) :=
  let paths := paths_spec fields []
  let pairs := paths.map (fun p => (path_to_var_name p, p))
  let varNames := pairs.map Prod.fst
  let dupNames := dedupFirst [] (varNames.filter (fun n => 1 < varNames.count n))
  if dupNames = [] then
    .ok pairs
  else
    .error (.runtimeError (dupNames.map (fun n =>
      (n, (pairs.filter (fun pr => pr.1 = n)).map Prod.snd))))

/-- The walk of ConfigParser._var_dict_to_proto_config for a single
variable: follow the resolved path through the nested dict, creating an
empty dict at a non-terminal segment whenever curr_level.get(segment) is
None (missing key or stored None), and assign the raw value at the final
segment.  When a non-terminal segment holds a string, the source sets
curr_level to that string and the next loop iteration fails: item
assignment on a str raises TypeError if the next segment is the final
one, and calling .get on a str raises AttributeError otherwise. -/
def setPath : List (String × PyVal) → List String → PyVal →
    Except PyErr (List (String × PyVal))
  | d, [], _ => .ok d
  | d, [seg], v => .ok (alSet d seg v)
  | d, seg :: s2 :: rest, v =>
    match alGet d seg with
    | none => do
      let sub ← setPath [] (s2 :: rest) v
      .ok (alSet d seg (.vdict sub))
    | some .vnone => do
      let sub ← setPath [] (s2 :: rest) v
      .ok (alSet d seg (.vdict sub))
    | some (.vdict sub0) => do
      let sub ← setPath sub0 (s2 :: rest) v
      .ok (alSet d seg (.vdict sub))
    | some (.vstr _) =>
      match rest with
      | [] => .error .typeError
      | _ => .error .attributeError

/-- The loop of ConfigParser._var_dict_to_proto_config: iterate the
variable dict in order; look each key up in the path table, raising
KeyError on the bare subscript path_lookup[var_name] when the key is
absent, and otherwise place the value at the resolved path. -/
def reshape_loop (t : List (String × List String)) :
    List (String × Option String) → List (String × PyVal) →
    Except PyErr (List (String × PyVal))
  | [], acc => .ok acc
  | (k, v) :: rest, acc =>
    match alGet t k with
    | none => .error (.keyError k)
    | some path => do
      let acc1 ← setPath acc path (pyOfOpt v)
      reshape_loop t rest acc1

/-- ConfigParser._var_dict_to_proto_config: build the path table from the
bound schema, then reshape the flat variable dict into the nested
proto-config starting from an empty root dict. -/
def var_dict_to_proto_config (fields : Fields)
    (d : List (String × Option String)) :
    Except PyErr (List (String × PyVal)) := do
  let t ← var_name_to_path_table fields
  reshape_loop t d []

/-- ConfigParser.parse as a function of the bound schema and var_prefix
attributes: when var_prefix is None the preprocessing is skipped and the
variable dict is passed through unchanged, otherwise it is prefix
filtered and stripped; the result is reshaped into the proto-config.
The final self.schema.model_validate call delegates to the external
schema validator, which the spec places out of scope, so the model
returns the proto-config that parse hands to it. -/
def parse_proto (fields : Fields) (varPfx : Option String)
    (d : List (String × Option String)) :
    Except PyErr (List (String × PyVal)) :=
  let preprocessed :=
    match varPfx with
    | none => d
    | some p => preprocess_var_dict p d
  var_dict_to_proto_config fields preprocessed

/-- The schema of the repository's own test suite: field1 str, field2 int,
sub_config a nested model with one int field sub_field. -/
def testSubFields : Fields := .cons "sub_field" none .leaf .nil

/-- Top-level fields of the test schema. -/
def testFields : Fields :=
  .cons "field1" none .leaf
    (.cons "field2" none .leaf
      (.cons "sub_config" none (.schema testSubFields) .nil))

/-- A schema with the two leaf paths a_b and a.b from claim C4. -/
def ambFields : Fields :=
  .cons "a_b" none .leaf
    (.cons "a" none (.schema (.cons "b" none .leaf .nil)) .nil)

/-- A flat schema whose two field names upper-case to the same variable
name AB, reaching the collision branch without nested fields. -/
def flatCollFields : Fields :=
  .cons "ab" none .leaf (.cons "aB" none .leaf .nil)

/-- C1: for every schema and every var_prefix argument (a string or None),
ConfigParser.__init__ assigns self.schema and then evaluates
self.var_prefix, an attribute that was never assigned and that the class
declares only as an annotation, so construction always raises
AttributeError and no instance is ever produced. -/
theorem c1_constructor_attribute_error (schema : Fields) (varPfx : Option String) :
    ConfigParser_init schema varPfx = .error .attributeError := rfl

/-- C2 (code bug): on the repository's own test schema, the path
enumerator raises TypeError instead of producing the document-order leaf
paths: the recursive call self._paths(annotation, prefixed_key) passes
two positional arguments to a method accepting only the path prefix.  The
spec-modelled enumerator yields exactly the paths the repository's test
test_can_parse_paths asserts. -/
theorem c2_paths_code_bug :
    paths_code testFields [] = .error .typeError ∧
    paths_spec testFields [] =
      [["field1"], ["field2"], ["sub_config", "sub_field"]] := by
  constructor
  · rfl
  · rfl

/-- C3 (code bug): on the repository's own test schema (three leaf fields
with pairwise distinct derived names), var_name_to_path_table raises
TypeError via the broken _paths recursion instead of returning the
three-entry bijection asserted by the repository's test
test_produces_the_expected_table; the spec-modelled builder returns
exactly that table. -/
theorem c3_table_code_bug :
    var_name_to_path_table testFields = .error .typeError ∧
    table_spec testFields = .ok
      [("FIELD1", ["field1"]), ("FIELD2", ["field2"]),
        ("SUB_CONFIG_SUB_FIELD", ["sub_config", "sub_field"])] := by
  exact ⟨rfl, rfl⟩

/-- C4 (code bug): for the claimed schema with the two leaf paths a_b and
a.b, the code raises TypeError from the broken _paths recursion before
any collision check runs, instead of the ambiguity error naming A_B; the
spec-modelled builder raises exactly that ambiguity error.  The collision
branch of the code itself does work whenever _paths succeeds: on a flat
schema whose field names ab and aB collide on AB it raises the
enumerating RuntimeError. -/
theorem c4_collision_code_bug :
    var_name_to_path_table ambFields = .error .typeError ∧
    table_spec ambFields =
      .error (.runtimeError [("A_B", [["a_b"], ["a", "b"]])]) ∧
    var_name_to_path_table flatCollFields =
      .error (.runtimeError [("AB", [["ab"], ["aB"]])]) := by
  exact ⟨rfl, rfl, rfl⟩

mutual
/-- Erase every declared alias of a schema, recursively. -/
def eraseAliases : Fields → Fields
  | .nil => .nil
  | .cons n _ t rest => .cons n none (eraseAliasesTy t) (eraseAliases rest)

/-- Erase aliases inside a field annotation. -/
def eraseAliasesTy : FType → FType
  | .leaf => .leaf
  | .schema fs => .schema (eraseAliases fs)
end

/-- The path enumerator of the code never reads a declared alias: erasing
every alias leaves its result unchanged. -/
theorem paths_code_erase : ∀ (fs : Fields) (pfxAcc : List String),
    paths_code (eraseAliases fs) pfxAcc = paths_code fs pfxAcc
  | .nil, _ => rfl
  | .cons n a t rest, pfxAcc => by
    cases t with
    | leaf =>
      simp [eraseAliases, eraseAliasesTy, paths_code,
        paths_code_erase rest pfxAcc]
    | schema fs2 =>
      simp [eraseAliases, eraseAliasesTy, paths_code]

/-- A schema with one field named address declared with alias host, from
claim C9. -/
def aliasFields : Fields := .cons "address" (some "host") .leaf .nil

/-- C9 counterexample: on a field named address with alias host, the code
derives the variable name ADDRESS and the path segment address; the alias
never appears (there is no HOST key), while the spec-modelled builder
derives HOST and segment host as the claim requires. -/
theorem c9_counterexample :
    var_name_to_path_table aliasFields = .ok [("ADDRESS", ["address"])] ∧
    alGet [(("ADDRESS" : String), (["address"] : List String))] "HOST" = none ∧
    table_spec aliasFields = .ok [("HOST", ["host"])] := by
  exact ⟨rfl, rfl, rfl⟩

/-- C9 amended: the code always uses the declared field name as the path
segment and ignores aliases entirely: erasing every alias from a schema
changes neither the enumerated paths nor the derived path table (and
hence none of the downstream reshaping, which is a function of the
table). -/
theorem c9_amended (fs : Fields) (pfxAcc : List String) :
    paths_code (eraseAliases fs) pfxAcc = paths_code fs pfxAcc ∧
    var_name_to_path_table (eraseAliases fs) = var_name_to_path_table fs := by
  refine ⟨paths_code_erase fs pfxAcc, ?_⟩
  unfold var_name_to_path_table
  rw [paths_code_erase fs []]

/-- The flat schema with the single leaf field field1, used by several
concrete evaluations below. -/
def oneFieldSchema : Fields := .cons "field1" none .leaf .nil

/-- C8 counterexample: parse performs no absent-value filtering, so a key
mapped to None does not behave like a missing key: with the one-field
schema and no prefix, the input mapping FIELD1 to None produces a
proto-config that contains field1 (bound to None), while the empty input
produces the empty proto-config. -/
theorem c8_counterexample :
    parse_proto oneFieldSchema none [("FIELD1", none)] ≠
      parse_proto oneFieldSchema none [] := by
  intro h
  have h1 : parse_proto oneFieldSchema none [("FIELD1", none)] =
      .ok [("field1", PyVal.vnone)] := rfl
  have h2 : parse_proto oneFieldSchema none [] = .ok [] := rfl
  rw [h1, h2] at h
  injection h with h3
  simp at h3

/-- C8 amended: parse never drops entries by value: an entry whose value
is None is kept through prefix filtering and reshaping exactly like a
string-valued entry, and its value (None included) is assigned unchanged
at the resolved field path, so the proto-config records the key.  Both
conjuncts are uniform in the value, with and without a configured
prefix. -/
theorem c8_amended (v : Option String) :
    parse_proto oneFieldSchema none [("FIELD1", v)] =
      .ok [("field1", pyOfOpt v)] ∧
    parse_proto oneFieldSchema (some "MYAPP") [("MYAPP_FIELD1", v)] =
      .ok [("field1", pyOfOpt v)] := by
  exact ⟨rfl, rfl⟩

/-- Appending an underscore always yields a string that ends with an
underscore. -/
theorem pyEndsWith_concat_underscore (s : String) :
    pyEndsWith (pyConcat s "_") "_" = true := by
  show List.isSuffixOf ['_'] (s.data ++ ['_']) = true
  simp [List.isSuffixOf, List.reverse_append, List.isPrefixOf]

/-- Preprocessing depends on the configured prefix only through its
normalization. -/
theorem preprocess_congr (a b : String) (d : List (String × Option String))
    (h : normVarPfx a = normVarPfx b) :
    preprocess_var_dict a d = preprocess_var_dict b d := by
  simp [preprocess_var_dict, strip_var_pfx, h]

/-- C10: _normalize_var_prefix returns its argument unchanged when it
already ends with an underscore and appends a single underscore
otherwise; it is idempotent, and consequently the prefixes MYAPP and
MYAPP_ give identical filtering and stripping behavior on every variable
dict. -/
theorem c10_normalization (p : String) (d : List (String × Option String)) :
    (pyEndsWith p "_" = true → normVarPfx p = p) ∧
    (pyEndsWith p "_" = false → normVarPfx p = pyConcat p "_") ∧
    normVarPfx (normVarPfx p) = normVarPfx p ∧
    preprocess_var_dict "MYAPP" d = preprocess_var_dict "MYAPP_" d := by
  refine ⟨fun h => ?_, fun h => ?_, ?_, ?_⟩
  · simp [normVarPfx, h]
  · simp [normVarPfx, h]
  · by_cases h : pyEndsWith p "_" = true
    · simp [normVarPfx, h]
    · have h1 : normVarPfx p = pyConcat p "_" := by
        simp [normVarPfx, h]
      rw [h1]
      simp [normVarPfx, pyEndsWith_concat_underscore]
  · exact preprocess_congr "MYAPP" "MYAPP_" d (by decide)

/-- C10 witness: the normalization facts at the concrete prefix MYAPP. -/
theorem c10_normalization_witness :
    normVarPfx (normVarPfx "MYAPP") = normVarPfx "MYAPP" ∧
    normVarPfx "MYAPP" = pyConcat "MYAPP" "_" ∧
    preprocess_var_dict "MYAPP" [("MYAPP_FIELD1", some "x")] =
      preprocess_var_dict "MYAPP_" [("MYAPP_FIELD1", some "x")] :=
  ⟨(c10_normalization "MYAPP" []).2.2.1,
    (c10_normalization "MYAPP" []).2.1 (by decide),
    (c10_normalization "MYAPP" [("MYAPP_FIELD1", some "x")]).2.2.2⟩

/-- A successful dict lookup returns an entry of the dict. -/
theorem alGet_mem {α : Type} : ∀ (l : List (String × α)) (key : String) (v : α),
    alGet l key = some v → (key, v) ∈ l
  | [], _key, _v, h => by simp [alGet] at h
  | (k0, v0) :: rest, key, v, h => by
    by_cases hk : k0 = key
    · subst hk
      simp [alGet] at h
      subst h
      exact List.mem_cons_self _ _
    · simp [alGet, hk] at h
      exact List.mem_cons_of_mem _ (alGet_mem rest key v h)

/-- Looking up the key just assigned returns the assigned value. -/
theorem alGet_alSet_self {α : Type} : ∀ (l : List (String × α)) (key : String) (v : α),
    alGet (alSet l key v) key = some v
  | [], key, v => by simp [alSet, alGet]
  | (k0, v0) :: rest, key, v => by
    by_cases hk : k0 = key
    · simp [alSet, hk, alGet]
    · simp [alSet, hk, alGet, alGet_alSet_self rest key v]

/-- Assigning one key leaves the lookup of every other key unchanged. -/
theorem alGet_alSet_ne {α : Type} : ∀ (l : List (String × α)) (key key2 : String) (v : α),
    key ≠ key2 → alGet (alSet l key v) key2 = alGet l key2
  | [], key, key2, v, h => by simp [alSet, alGet, h]
  | (k0, v0) :: rest, key, key2, v, h => by
    by_cases hk : k0 = key
    · subst hk
      simp [alSet, alGet, h]
    · simp only [alSet, if_neg hk, alGet]
      by_cases hk2 : k0 = key2
      · simp [hk2]
      · simp [hk2, alGet_alSet_ne rest key key2 v h]

/-- Every path produced by a successful run of the code's path enumerator
extends the accumulator by exactly one segment: the enumerator succeeds
only on schemas all of whose fields are leaves. -/
theorem paths_code_ok_shape : ∀ (fs : Fields) (pfxAcc : List String)
    (ps : List (List String)), paths_code fs pfxAcc = .ok ps →
    ∀ p ∈ ps, ∃ n, p = pfxAcc ++ [n]
  | .nil, pfxAcc, ps, h => by
    simp [paths_code] at h
    subst h
    simp
  | .cons n a t rest, pfxAcc, ps, h => by
    cases t with
    | schema fs2 => simp [paths_code] at h
    | leaf =>
      cases hr : paths_code rest pfxAcc with
      | error e => simp [paths_code, hr, Bind.bind, Except.bind] at h
      | ok tail =>
        simp [paths_code, hr, Bind.bind, Except.bind] at h
        subst h
        intro p hp
        rcases List.mem_cons.mp hp with h1 | h1
        · exact ⟨n, h1⟩
        · exact paths_code_ok_shape rest pfxAcc tail hr p h1

/-- Inversion of a successful table build: the paths enumeration succeeded
and the table is the association list pairing each path with its derived
variable name. -/
theorem table_ok_inv (fs : Fields) (t : List (String × List String))
    (ht : var_name_to_path_table fs = .ok t) :
    ∃ ps, paths_code fs [] = .ok ps ∧
      t = ps.map (fun p => (path_to_var_name p, p)) := by
  unfold var_name_to_path_table at ht
  cases hr : paths_code fs [] with
  | error e =>
    rw [hr] at ht
    simp [Bind.bind, Except.bind] at ht
  | ok ps =>
    rw [hr] at ht
    simp only [Bind.bind, Except.bind] at ht
    split at ht
    · exact ⟨ps, rfl, (Except.ok.inj ht).symm⟩
    · simp at ht

/-- In a successfully built table, every stored path is a single segment
(the enumerator only succeeds on flat schemas) and the key is the derived
variable name of that path. -/
theorem table_key_shape (fs : Fields) (t : List (String × List String))
    (ht : var_name_to_path_table fs = .ok t) (k : String) (p : List String)
    (hk : alGet t k = some p) :
    k = path_to_var_name p ∧ ∃ n, p = [n] := by
  obtain ⟨ps, hps, hteq⟩ := table_ok_inv fs t ht
  have hmem := alGet_mem t k p hk
  rw [hteq] at hmem
  simp only [List.mem_map, Prod.mk.injEq] at hmem
  obtain ⟨p0, hp0, h1, h2⟩ := hmem
  subst h2
  refine ⟨h1.symm, ?_⟩
  obtain ⟨n, hn⟩ := paths_code_ok_shape fs [] ps hps p0 hp0
  exact ⟨n, by simpa using hn⟩

/-- The reshaping loop fails with KeyError at the first variable, in
iteration order, whose name is not a key of the path table, provided all
earlier variables resolve (to single-segment paths, as every successfully
built table guarantees). -/
theorem reshape_loop_first_missing (t : List (String × List String))
    (hshape : ∀ k p, alGet t k = some p → ∃ n, p = [n]) :
    ∀ (pre post : List (String × Option String))
      (k : String) (v : Option String) (acc : List (String × PyVal)),
      (∀ kv ∈ pre, alGet t kv.1 ≠ none) → alGet t k = none →
      reshape_loop t (pre ++ (k, v) :: post) acc = .error (.keyError k)
  | [], post, k, v, acc, _hpre, hk => by
    simp [reshape_loop, hk]
  | (k0, v0) :: pre, post, k, v, acc, hpre, hk => by
    have h0 : alGet t k0 ≠ none := hpre (k0, v0) (List.mem_cons_self _ _)
    cases hg : alGet t k0 with
    | none => exact absurd hg h0
    | some p =>
      obtain ⟨n, hn⟩ := hshape k0 p hg
      subst hn
      simp only [List.cons_append, reshape_loop, hg, setPath, Bind.bind, Except.bind]
      exact reshape_loop_first_missing t hshape pre post k v
        (alSet acc n (pyOfOpt v0))
        (fun kv hkv => hpre kv (List.mem_cons_of_mem _ hkv)) hk

/-- C5 counterexample: an unrecognized variable makes the reshaper fail
with the bare KeyError of the subscript path_lookup[var_name], which
carries only the offending key; no error listing the set of recognized
variable names is ever constructed, contrary to the claim. -/
theorem c5_counterexample :
    var_dict_to_proto_config oneFieldSchema [("EXTRA", some "y")] =
      .error (.keyError "EXTRA") := rfl

/-- C5 amended: for every variable dict (after prefix filtering)
containing a key that is not a key of the derived path table, reshaping
fails at the first such key, in iteration order, with a KeyError carrying
only that key; the unknown key is not silently ignored, but the error
does not name the recognized variable names. -/
theorem c5_amended (fields : Fields) (t : List (String × List String))
    (pre post : List (String × Option String)) (k : String) (v : Option String)
    (ht : var_name_to_path_table fields = .ok t)
    (hpre : ∀ kv ∈ pre, alGet t kv.1 ≠ none)
    (hk : alGet t k = none) :
    var_dict_to_proto_config fields (pre ++ (k, v) :: post) =
      .error (.keyError k) := by
  unfold var_dict_to_proto_config
  rw [ht]
  simp only [Bind.bind, Except.bind]
  exact reshape_loop_first_missing t
    (fun k0 p h => (table_key_shape fields t ht k0 p h).2) pre post k v [] hpre hk

/-- C5 witness: the amended statement at the one-field schema with a
recognized variable followed by the stray key EXTRA. -/
theorem c5_amended_witness :
    var_dict_to_proto_config oneFieldSchema
      ([("FIELD1", some "x")] ++ ("EXTRA", some "y") :: []) =
      .error (.keyError "EXTRA") :=
  c5_amended oneFieldSchema [("FIELD1", ["field1"])]
    [("FIELD1", some "x")] [] "EXTRA" (some "y")
    rfl (by decide) (by decide)

/-- C7: with a configured prefix, parse reshapes exactly the preprocessed
dict, whose entries are exactly those of the input whose key starts with
the normalized prefix, each retained key with the normalized prefix
stripped (its first len(normalized) characters dropped); with prefix
None, parse reshapes the input unchanged. -/
theorem c7_preprocessing (fields : Fields) (p : String)
    (d : List (String × Option String)) (k : String) (v : Option String) :
    ((k, v) ∈ preprocess_var_dict p d ↔
      ∃ k0, (k0, v) ∈ d ∧ pyStartsWith k0 (normVarPfx p) = true ∧
        k = pyDrop k0 (pyLen (normVarPfx p))) ∧
    parse_proto fields (some p) d =
      var_dict_to_proto_config fields (preprocess_var_dict p d) ∧
    parse_proto fields none d = var_dict_to_proto_config fields d := by
  refine ⟨?_, rfl, rfl⟩
  simp only [preprocess_var_dict, List.mem_map, List.mem_filter, strip_var_pfx]
  constructor
  · rintro ⟨⟨k0, v0⟩, ⟨hmem, hstart⟩, heq⟩
    simp only [Prod.mk.injEq] at heq
    exact ⟨k0, heq.2 ▸ hmem, hstart, heq.1.symm⟩
  · rintro ⟨k0, hmem, hstart, hk⟩
    exact ⟨(k0, v), ⟨hmem, hstart⟩, by simp [hk]⟩

/-- C7 witness: concrete preprocessing facts at prefix MYAPP. -/
theorem c7_preprocessing_witness :
    (("FIELD1", (some "x" : Option String)) ∈
      preprocess_var_dict "MYAPP" [("MYAPP_FIELD1", some "x"), ("OTHER", some "y")]) ∧
    parse_proto oneFieldSchema none [("FIELD1", some "x")] =
      var_dict_to_proto_config oneFieldSchema [("FIELD1", some "x")] :=
  ⟨(c7_preprocessing oneFieldSchema "MYAPP"
      [("MYAPP_FIELD1", some "x"), ("OTHER", some "y")] "FIELD1" (some "x")).1.mpr
      ⟨"MYAPP_FIELD1", by decide, by decide, by decide⟩,
    (c7_preprocessing oneFieldSchema "MYAPP"
      [("FIELD1", some "x")] "FIELD1" (some "x")).2.2⟩

/-- Read the value stored at a (non-empty) path of a nested proto-config
dict, descending only through nested dicts.  A path is present in the
proto-config exactly when this returns some value. -/
def getPath : List (String × PyVal) → List String → Option PyVal
  | _, [] => none
  | d, [seg] => alGet d seg
  | d, seg :: s2 :: rest =>
    match alGet d seg with
    | some (.vdict sub) => getPath sub (s2 :: rest)
    | _ => none

/-- Total version of the single-variable walk setPath, used to reason
about the walks that cannot fail: it agrees with setPath whenever no
string value sits at a proper prefix of the path (setPath_eq_T below). -/
def setPathT : List (String × PyVal) → List String → PyVal → List (String × PyVal)
  | d, [], _ => d
  | d, [seg], v => alSet d seg v
  | d, seg :: s2 :: rest, v =>
    match alGet d seg with
    | some (.vdict sub0) => alSet d seg (.vdict (setPathT sub0 (s2 :: rest) v))
    | _ => alSet d seg (.vdict (setPathT [] (s2 :: rest) v))

/-- No string value blocks the walk of the given path: every value met at
a proper prefix of the path is a nested dict, a stored None, or missing.
This is exactly the condition under which the source's walk cannot
raise. -/
def dictsAlong : List (String × PyVal) → List String → Bool
  | _, [] => true
  | _, [_] => true
  | d, seg :: s2 :: rest =>
    match alGet d seg with
    | none => true
    | some .vnone => true
    | some (.vdict sub) => dictsAlong sub (s2 :: rest)
    | some (.vstr _) => false

/-- Boolean path-prefix test on segment lists. -/
def pfxOf : List String → List String → Bool
  | [], _ => true
  | _ :: _, [] => false
  | a :: q, b :: r => if a = b then pfxOf q r else false

/-- A value that is not a nested dict (a raw string or None): exactly the
values the reshaper stores at terminal segments. -/
def leafVal : PyVal → Bool
  | .vdict _ => false
  | _ => true

/-- Values carried from the variable dict are never nested dicts. -/
theorem leafVal_pyOfOpt (v : Option String) : leafVal (pyOfOpt v) = true := by
  cases v <;> rfl

/-- Nothing is stored at any path of the empty dict. -/
theorem getPath_nil : ∀ (q : List String), getPath [] q = none
  | [] => rfl
  | [_] => rfl
  | _ :: _ :: _ => rfl

/-- Every walk of the empty dict is unblocked. -/
theorem dictsAlong_nil : ∀ (p : List String), dictsAlong [] p = true
  | [] => rfl
  | [_] => rfl
  | _ :: _ :: _ => rfl

/-- The empty path is a prefix of every path. -/
theorem pfxOf_nil (q : List String) : pfxOf [] q = true := rfl

/-- Prefix test under a shared head segment. -/
theorem pfxOf_cons_same (a : String) (q r : List String) :
    pfxOf (a :: q) (a :: r) = pfxOf q r := by
  simp [pfxOf]

/-- Prefix test with distinct head segments. -/
theorem pfxOf_cons_ne (a b : String) (q r : List String) (h : a ≠ b) :
    pfxOf (a :: q) (b :: r) = false := by
  simp [pfxOf, h]

/-- Walking two or more segments always rewrites exactly the head segment
of the current level to a nested dict. -/
theorem setPathT_cons2 (d : List (String × PyVal)) (seg s2 : String)
    (rest : List String) (v : PyVal) :
    ∃ sub, setPathT d (seg :: s2 :: rest) v = alSet d seg (.vdict sub) := by
  cases hg : alGet d seg with
  | none => exact ⟨setPathT [] (s2 :: rest) v, by simp [setPathT, hg]⟩
  | some val =>
    cases val with
    | vnone => exact ⟨setPathT [] (s2 :: rest) v, by simp [setPathT, hg]⟩
    | vstr s => exact ⟨setPathT [] (s2 :: rest) v, by simp [setPathT, hg]⟩
    | vdict sub0 => exact ⟨setPathT sub0 (s2 :: rest) v, by simp [setPathT, hg]⟩

/-- The fallible walk of the source agrees with the total walk whenever no
string value blocks the path. -/
theorem setPath_eq_T : ∀ (d : List (String × PyVal)) (p : List String) (v : PyVal),
    dictsAlong d p = true → setPath d p v = .ok (setPathT d p v)
  | _, [], _, _ => rfl
  | _, [_], _, _ => rfl
  | d, seg :: s2 :: rest, v, h => by
    have hnil := dictsAlong_nil (s2 :: rest)
    cases hg : alGet d seg with
    | none =>
      simp only [setPath, setPathT, hg, setPath_eq_T [] (s2 :: rest) v hnil,
        Bind.bind, Except.bind]
    | some val =>
      cases val with
      | vnone =>
        simp only [setPath, setPathT, hg, setPath_eq_T [] (s2 :: rest) v hnil,
          Bind.bind, Except.bind]
      | vstr s =>
        exfalso
        simp [dictsAlong, hg] at h
      | vdict sub0 =>
        have hsub : dictsAlong sub0 (s2 :: rest) = true := by
          simpa [dictsAlong, hg] using h
        simp only [setPath, setPathT, hg, setPath_eq_T sub0 (s2 :: rest) v hsub,
          Bind.bind, Except.bind]

/-- After the total walk writes a value at a non-empty path, reading that
path returns the written value. -/
theorem getPath_setPathT_self : ∀ (d : List (String × PyVal)) (p : List String) (v : PyVal),
    p ≠ [] → getPath (setPathT d p v) p = some v
  | _, [], _, h => absurd rfl h
  | d, [seg], v, _ => by
    simp [setPathT, getPath, alGet_alSet_self]
  | d, seg :: s2 :: rest, v, _ => by
    cases hg : alGet d seg with
    | none =>
      simp [setPathT, hg, getPath, alGet_alSet_self,
        getPath_setPathT_self [] (s2 :: rest) v (by simp)]
    | some val =>
      cases val with
      | vnone =>
        simp [setPathT, hg, getPath, alGet_alSet_self,
          getPath_setPathT_self [] (s2 :: rest) v (by simp)]
      | vstr s =>
        simp [setPathT, hg, getPath, alGet_alSet_self,
          getPath_setPathT_self [] (s2 :: rest) v (by simp)]
      | vdict sub0 =>
        simp [setPathT, hg, getPath, alGet_alSet_self,
          getPath_setPathT_self sub0 (s2 :: rest) v (by simp)]

/-- The total walk of a path leaves the value read at every other path
(neither a prefix nor an extension of the written one) unchanged. -/
theorem getPath_setPathT_frame : ∀ (d : List (String × PyVal)) (p q : List String) (v : PyVal),
    pfxOf p q = false → pfxOf q p = false →
    getPath (setPathT d p v) q = getPath d q
  | _, [], _, _, hpq, _ => by simp [pfxOf] at hpq
  | d, [seg], q, v, hpq, hqp => by
    cases q with
    | nil => simp [getPath]
    | cons qs qtail =>
      by_cases hsq : seg = qs
      · subst hsq
        simp [pfxOf] at hpq
      · cases qtail with
        | nil => simp [setPathT, getPath, alGet_alSet_ne d seg qs v hsq]
        | cons q2 qrest =>
          simp only [setPathT, getPath, alGet_alSet_ne d seg qs v hsq]
  | d, seg :: s2 :: rest, q, v, hpq, hqp => by
    cases q with
    | nil => simp [getPath]
    | cons qs qtail =>
      by_cases hsq : seg = qs
      · subst hsq
        have hpq' : pfxOf (s2 :: rest) qtail = false := by simpa [pfxOf] using hpq
        have hqp' : pfxOf qtail (s2 :: rest) = false := by simpa [pfxOf] using hqp
        cases qtail with
        | nil => simp [pfxOf] at hqp'
        | cons q2 qrest =>
          cases hg : alGet d seg with
          | none =>
            have h1 : getPath (setPathT d (seg :: s2 :: rest) v) (seg :: q2 :: qrest) =
                getPath (setPathT [] (s2 :: rest) v) (q2 :: qrest) := by
              simp [setPathT, hg, getPath, alGet_alSet_self]
            rw [h1, getPath_setPathT_frame [] (s2 :: rest) (q2 :: qrest) v hpq' hqp',
              getPath_nil]
            simp [getPath, hg]
          | some val =>
            cases val with
            | vnone =>
              have h1 : getPath (setPathT d (seg :: s2 :: rest) v) (seg :: q2 :: qrest) =
                  getPath (setPathT [] (s2 :: rest) v) (q2 :: qrest) := by
                simp [setPathT, hg, getPath, alGet_alSet_self]
              rw [h1, getPath_setPathT_frame [] (s2 :: rest) (q2 :: qrest) v hpq' hqp',
                getPath_nil]
              simp [getPath, hg]
            | vstr s =>
              have h1 : getPath (setPathT d (seg :: s2 :: rest) v) (seg :: q2 :: qrest) =
                  getPath (setPathT [] (s2 :: rest) v) (q2 :: qrest) := by
                simp [setPathT, hg, getPath, alGet_alSet_self]
              rw [h1, getPath_setPathT_frame [] (s2 :: rest) (q2 :: qrest) v hpq' hqp',
                getPath_nil]
              simp [getPath, hg]
            | vdict sub0 =>
              have h1 : getPath (setPathT d (seg :: s2 :: rest) v) (seg :: q2 :: qrest) =
                  getPath (setPathT sub0 (s2 :: rest) v) (q2 :: qrest) := by
                simp [setPathT, hg, getPath, alGet_alSet_self]
              rw [h1, getPath_setPathT_frame sub0 (s2 :: rest) (q2 :: qrest) v hpq' hqp']
              simp [getPath, hg]
      · obtain ⟨sub, hsub⟩ := setPathT_cons2 d seg s2 rest v
        rw [hsub]
        cases qtail with
        | nil => simp [getPath, alGet_alSet_ne d seg qs _ hsq]
        | cons q2 qrest =>
          simp only [getPath, alGet_alSet_ne d seg qs _ hsq]

/-- Every path readable after a total walk writing a leaf value was
already readable before, or is a prefix of the written path. -/
theorem getPath_setPathT_cover : ∀ (d : List (String × PyVal)) (p q : List String) (v : PyVal),
    leafVal v = true → getPath (setPathT d p v) q ≠ none →
    getPath d q ≠ none ∨ pfxOf q p = true
  | _, [], _, _, _, h => Or.inl h
  | d, [seg], q, v, hleaf, h => by
    cases q with
    | nil => simp [getPath] at h
    | cons qs qtail =>
      by_cases hsq : seg = qs
      · subst hsq
        cases qtail with
        | nil => exact Or.inr (by simp [pfxOf])
        | cons q2 qrest =>
          exfalso
          cases v with
          | vdict e => simp [leafVal] at hleaf
          | vnone => simp [setPathT, getPath, alGet_alSet_self] at h
          | vstr s => simp [setPathT, getPath, alGet_alSet_self] at h
      · left
        cases qtail with
        | nil => simpa [setPathT, getPath, alGet_alSet_ne d seg qs v hsq] using h
        | cons q2 qrest =>
          simpa only [setPathT, getPath, alGet_alSet_ne d seg qs v hsq] using h
  | d, seg :: s2 :: rest, q, v, hleaf, h => by
    cases q with
    | nil => simp [getPath] at h
    | cons qs qtail =>
      by_cases hsq : seg = qs
      · subst hsq
        cases qtail with
        | nil => exact Or.inr (by simp [pfxOf])
        | cons q2 qrest =>
          cases hg : alGet d seg with
          | none =>
            have h1 : getPath (setPathT d (seg :: s2 :: rest) v) (seg :: q2 :: qrest) =
                getPath (setPathT [] (s2 :: rest) v) (q2 :: qrest) := by
              simp [setPathT, hg, getPath, alGet_alSet_self]
            rw [h1] at h
            rcases getPath_setPathT_cover [] (s2 :: rest) (q2 :: qrest) v hleaf h with h2 | h2
            · rw [getPath_nil] at h2
              exact absurd rfl h2
            · exact Or.inr (by simpa [pfxOf] using h2)
          | some val =>
            cases val with
            | vnone =>
              have h1 : getPath (setPathT d (seg :: s2 :: rest) v) (seg :: q2 :: qrest) =
                  getPath (setPathT [] (s2 :: rest) v) (q2 :: qrest) := by
                simp [setPathT, hg, getPath, alGet_alSet_self]
              rw [h1] at h
              rcases getPath_setPathT_cover [] (s2 :: rest) (q2 :: qrest) v hleaf h with h2 | h2
              · rw [getPath_nil] at h2
                exact absurd rfl h2
              · exact Or.inr (by simpa [pfxOf] using h2)
            | vstr s =>
              have h1 : getPath (setPathT d (seg :: s2 :: rest) v) (seg :: q2 :: qrest) =
                  getPath (setPathT [] (s2 :: rest) v) (q2 :: qrest) := by
                simp [setPathT, hg, getPath, alGet_alSet_self]
              rw [h1] at h
              rcases getPath_setPathT_cover [] (s2 :: rest) (q2 :: qrest) v hleaf h with h2 | h2
              · rw [getPath_nil] at h2
                exact absurd rfl h2
              · exact Or.inr (by simpa [pfxOf] using h2)
            | vdict sub0 =>
              have h1 : getPath (setPathT d (seg :: s2 :: rest) v) (seg :: q2 :: qrest) =
                  getPath (setPathT sub0 (s2 :: rest) v) (q2 :: qrest) := by
                simp [setPathT, hg, getPath, alGet_alSet_self]
              rw [h1] at h
              rcases getPath_setPathT_cover sub0 (s2 :: rest) (q2 :: qrest) v hleaf h with h2 | h2
              · left
                simpa [getPath, hg] using h2
              · exact Or.inr (by simpa [pfxOf] using h2)
      · left
        obtain ⟨sub, hsub⟩ := setPathT_cons2 d seg s2 rest v
        rw [hsub] at h
        cases qtail with
        | nil => simpa [getPath, alGet_alSet_ne d seg qs _ hsq] using h
        | cons q2 qrest =>
          simpa only [getPath, alGet_alSet_ne d seg qs _ hsq] using h

/-- A total walk of one path never blocks the walk of another path that is
neither a prefix nor an extension of it. -/
theorem dictsAlong_setPathT : ∀ (d : List (String × PyVal)) (p r : List String) (v : PyVal),
    pfxOf p r = false → pfxOf r p = false → dictsAlong d r = true →
    dictsAlong (setPathT d p v) r = true
  | _, [], _, _, hpr, _, _ => by simp [pfxOf] at hpr
  | d, [seg], r, v, hpr, hrp, h => by
    cases r with
    | nil => rfl
    | cons rs rtail =>
      cases rtail with
      | nil => rfl
      | cons r2 rrest =>
        by_cases hsr : seg = rs
        · subst hsr
          simp [pfxOf] at hpr
        · simpa [dictsAlong, setPathT, alGet_alSet_ne d seg rs v hsr] using h
  | d, seg :: s2 :: rest, r, v, hpr, hrp, h => by
    cases r with
    | nil => rfl
    | cons rs rtail =>
      cases rtail with
      | nil => rfl
      | cons r2 rrest =>
        by_cases hsr : seg = rs
        · subst hsr
          have hpr' : pfxOf (s2 :: rest) (r2 :: rrest) = false := by
            simpa [pfxOf] using hpr
          have hrp' : pfxOf (r2 :: rrest) (s2 :: rest) = false := by
            simpa [pfxOf] using hrp
          cases hg : alGet d seg with
          | none =>
            have h2 := dictsAlong_setPathT [] (s2 :: rest) (r2 :: rrest) v hpr' hrp'
              (dictsAlong_nil _)
            simpa [dictsAlong, setPathT, hg, alGet_alSet_self] using h2
          | some val =>
            cases val with
            | vnone =>
              have h2 := dictsAlong_setPathT [] (s2 :: rest) (r2 :: rrest) v hpr' hrp'
                (dictsAlong_nil _)
              simpa [dictsAlong, setPathT, hg, alGet_alSet_self] using h2
            | vstr s =>
              exfalso
              simp [dictsAlong, hg] at h
            | vdict sub0 =>
              have hsub : dictsAlong sub0 (r2 :: rrest) = true := by
                simpa [dictsAlong, hg] using h
              have h2 := dictsAlong_setPathT sub0 (s2 :: rest) (r2 :: rrest) v hpr' hrp' hsub
              simpa [dictsAlong, setPathT, hg, alGet_alSet_self] using h2
        · obtain ⟨sub, hsub⟩ := setPathT_cons2 d seg s2 rest v
          rw [hsub]
          simpa [dictsAlong, alGet_alSet_ne d seg rs _ hsr] using h

/-- Inversion of a successful prefix test with a non-empty left side. -/
theorem pfxOf_cons_inv (a : String) (qt p : List String)
    (h : pfxOf (a :: qt) p = true) :
    ∃ pt, p = a :: pt ∧ pfxOf qt pt = true := by
  cases p with
  | nil => simp [pfxOf] at h
  | cons b pt =>
    by_cases hab : a = b
    · subst hab
      exact ⟨pt, rfl, by simpa [pfxOf] using h⟩
    · simp [pfxOf, hab] at h

/-- If a path is readable in a nested dict, every non-empty prefix of it
is readable too: writing a value creates every level along its path. -/
theorem getPath_pfx_ne_none : ∀ (dd : List (String × PyVal)) (p q : List String),
    getPath dd p ≠ none → pfxOf q p = true → q ≠ [] → getPath dd q ≠ none
  | _, _, [], _, _, hq => absurd rfl hq
  | dd, p, [a], hp, hpfx, _ => by
    obtain ⟨pt, rfl, _⟩ := pfxOf_cons_inv a [] p hpfx
    cases pt with
    | nil => exact hp
    | cons p2 prest =>
      intro hnone
      have hga : alGet dd a = none := by simpa [getPath] using hnone
      exact hp (by simp [getPath, hga])
  | dd, p, a :: q2 :: qrest, hp, hpfx, _ => by
    obtain ⟨pt, rfl, hpfx'⟩ := pfxOf_cons_inv a (q2 :: qrest) p hpfx
    cases pt with
    | nil => simp [pfxOf] at hpfx'
    | cons p2 prest =>
      cases hg : alGet dd a with
      | none => exact absurd (by simp [getPath, hg]) hp
      | some val =>
        cases val with
        | vnone => exact absurd (by simp [getPath, hg]) hp
        | vstr s => exact absurd (by simp [getPath, hg]) hp
        | vdict sub =>
          have hp2 : getPath sub (p2 :: prest) ≠ none := by
            simpa [getPath, hg] using hp
          have h3 := getPath_pfx_ne_none sub (p2 :: prest) (q2 :: qrest) hp2 hpfx' (by simp)
          simpa [getPath, hg] using h3

/-- Specification of the reshaping loop: if every variable resolves in the
table to a non-empty path whose walk is unblocked in the accumulator, and
the resolved paths of distinct variables are pairwise neither equal nor
prefix-related, then the loop succeeds; every variable's raw value is
readable at its resolved path, everything readable was already in the
accumulator or lies on a resolved path of some processed variable, and
paths unrelated to every processed variable read unchanged. -/
theorem reshape_loop_spec (t : List (String × List String)) :
    ∀ (d : List (String × Option String)) (acc : List (String × PyVal)),
    (∀ kv ∈ d, ∃ p, alGet t kv.1 = some p ∧ p ≠ [] ∧ dictsAlong acc p = true) →
    List.Pairwise (fun a b => ∀ p q, alGet t a.1 = some p → alGet t b.1 = some q →
      pfxOf p q = false ∧ pfxOf q p = false) d →
    ∃ proto, reshape_loop t d acc = .ok proto ∧
      (∀ kv ∈ d, ∀ p, alGet t kv.1 = some p → getPath proto p = some (pyOfOpt kv.2)) ∧
      (∀ q, getPath proto q ≠ none →
        getPath acc q ≠ none ∨ ∃ kv ∈ d, ∃ p, alGet t kv.1 = some p ∧ pfxOf q p = true) ∧
      (∀ q, (∀ kv ∈ d, ∀ p, alGet t kv.1 = some p →
          pfxOf p q = false ∧ pfxOf q p = false) →
        getPath proto q = getPath acc q) := by
  intro d
  induction d with
  | nil =>
    intro acc _ _
    exact ⟨acc, rfl, by simp, fun q h => Or.inl h, fun q _ => rfl⟩
  | cons kv0 rest ih =>
    intro acc hall hpw
    obtain ⟨k, v⟩ := kv0
    obtain ⟨p, hp, hpne, hda⟩ := hall (k, v) (List.mem_cons_self _ _)
    have hloop1 : reshape_loop t ((k, v) :: rest) acc =
        reshape_loop t rest (setPathT acc p (pyOfOpt v)) := by
      simp [reshape_loop, hp, setPath_eq_T acc p (pyOfOpt v) hda, Bind.bind, Except.bind]
    have hpwhead := List.pairwise_cons.mp hpw
    have hall2 : ∀ kv ∈ rest, ∃ p2, alGet t kv.1 = some p2 ∧ p2 ≠ [] ∧
        dictsAlong (setPathT acc p (pyOfOpt v)) p2 = true := by
      intro kv hkv
      obtain ⟨p2, hp2, hp2ne, hda2⟩ := hall kv (List.mem_cons_of_mem _ hkv)
      obtain ⟨h1, h2⟩ := hpwhead.1 kv hkv p p2 hp hp2
      exact ⟨p2, hp2, hp2ne, dictsAlong_setPathT acc p p2 (pyOfOpt v) h1 h2 hda2⟩
    obtain ⟨proto, hloop, hvals, hcover, hframe⟩ :=
      ih (setPathT acc p (pyOfOpt v)) hall2 hpwhead.2
    refine ⟨proto, by rw [hloop1]; exact hloop, ?_, ?_, ?_⟩
    · intro kv hkv p0 hp0
      rcases List.mem_cons.mp hkv with h1 | h1
      · subst h1
        show getPath proto p0 = some (pyOfOpt v)
        have hp0k : alGet t k = some p0 := hp0
        rw [hp] at hp0k
        injection hp0k with hp0k
        subst hp0k
        have hfr : getPath proto p = getPath (setPathT acc p (pyOfOpt v)) p := by
          apply hframe
          intro kv2 hkv2 p2 hp2
          obtain ⟨h2, h3⟩ := hpwhead.1 kv2 hkv2 p p2 hp hp2
          exact ⟨h3, h2⟩
        rw [hfr, getPath_setPathT_self acc p (pyOfOpt v) hpne]
      · exact hvals kv h1 p0 hp0
    · intro q hq
      rcases hcover q hq with h1 | h1
      · rcases getPath_setPathT_cover acc p q (pyOfOpt v) (leafVal_pyOfOpt v) h1 with h2 | h2
        · exact Or.inl h2
        · exact Or.inr ⟨(k, v), List.mem_cons_self _ _, p, hp, h2⟩
      · obtain ⟨kv2, hkv2, p2, hp2, hpfx2⟩ := h1
        exact Or.inr ⟨kv2, List.mem_cons_of_mem _ hkv2, p2, hp2, hpfx2⟩
    · intro q hqall
      have h1 := hframe q (fun kv2 hkv2 p2 hp2 =>
        hqall kv2 (List.mem_cons_of_mem _ hkv2) p2 hp2)
      rw [h1]
      obtain ⟨h2, h3⟩ := hqall (k, v) (List.mem_cons_self _ _) p hp
      exact getPath_setPathT_frame acc p q (pyOfOpt v) h2 h3

/-- C6: for every variable dict with distinct keys all of which appear in
the (successfully built) path table, reshaping succeeds and returns a
nested mapping in which each entry's raw value (a string kept unchanged,
with no coercion) is readable at its resolved field path; every path
present in the result is a non-empty prefix of the resolved path of some
input entry, and conversely every non-empty prefix of a resolved path of
an input entry is present, so the proto-config mirrors exactly the
sub-paths of the entries present in the input and a leaf field with no
entry contributes no key at any level. -/
theorem c6_reshape (fields : Fields) (t : List (String × List String))
    (d : List (String × Option String))
    (ht : var_name_to_path_table fields = .ok t)
    (hnodup : (d.map Prod.fst).Nodup)
    (hkeys : ∀ kv ∈ d, alGet t kv.1 ≠ none) :
    ∃ proto, var_dict_to_proto_config fields d = .ok proto ∧
      (∀ kv ∈ d, ∀ p, alGet t kv.1 = some p →
        getPath proto p = some (pyOfOpt kv.2)) ∧
      (∀ q, getPath proto q ≠ none →
        ∃ kv ∈ d, ∃ p, alGet t kv.1 = some p ∧ pfxOf q p = true) ∧
      (∀ kv ∈ d, ∀ p q, alGet t kv.1 = some p → pfxOf q p = true → q ≠ [] →
        getPath proto q ≠ none) := by
  have hall : ∀ kv ∈ d, ∃ p, alGet t kv.1 = some p ∧ p ≠ [] ∧
      dictsAlong ([] : List (String × PyVal)) p = true := by
    intro kv hkv
    cases hg : alGet t kv.1 with
    | none => exact absurd hg (hkeys kv hkv)
    | some p =>
      obtain ⟨n, hn⟩ := (table_key_shape fields t ht kv.1 p hg).2
      exact ⟨p, rfl, by simp [hn], dictsAlong_nil p⟩
  have hkeysne : List.Pairwise (fun a b : String × Option String => a.1 ≠ b.1) d :=
    (List.pairwise_map).mp hnodup
  have hpw : List.Pairwise (fun a b => ∀ p q, alGet t a.1 = some p →
      alGet t b.1 = some q → pfxOf p q = false ∧ pfxOf q p = false) d := by
    refine hkeysne.imp ?_
    intro a b hne p q hp hq
    have hAshape := table_key_shape fields t ht a.1 p hp
    have hBshape := table_key_shape fields t ht b.1 q hq
    obtain ⟨n, hn⟩ := hAshape.2
    obtain ⟨m, hm⟩ := hBshape.2
    subst hn
    subst hm
    have hnm : n ≠ m := by
      intro he
      subst he
      exact hne (hAshape.1.trans hBshape.1.symm)
    exact ⟨by simp [pfxOf, hnm], by simp [pfxOf, Ne.symm hnm]⟩
  obtain ⟨proto, hloop, hvals, hcover, hframe⟩ := reshape_loop_spec t d [] hall hpw
  refine ⟨proto, ?_, hvals, ?_, ?_⟩
  · unfold var_dict_to_proto_config
    rw [ht]
    simpa [Bind.bind, Except.bind] using hloop
  · intro q hq
    rcases hcover q hq with h1 | h1
    · rw [getPath_nil] at h1
      exact absurd rfl h1
    · exact h1
  · intro kv hkv p q hp hpfx hqne
    have h1 : getPath proto p ≠ none := by
      rw [hvals kv hkv p hp]
      simp
    exact getPath_pfx_ne_none proto p q h1 hpfx hqne

/-- C6 witness: the reshaping facts at the one-field schema, its table and
the singleton variable dict binding FIELD1 to the string x. -/
theorem c6_reshape_witness :
    ∃ proto,
      var_dict_to_proto_config oneFieldSchema [("FIELD1", some "x")] = .ok proto ∧
      (∀ kv ∈ [(("FIELD1" : String), (some "x" : Option String))], ∀ p,
        alGet [(("FIELD1" : String), (["field1"] : List String))] kv.1 = some p →
        getPath proto p = some (pyOfOpt kv.2)) ∧
      (∀ q, getPath proto q ≠ none →
        ∃ kv ∈ [(("FIELD1" : String), (some "x" : Option String))], ∃ p,
          alGet [(("FIELD1" : String), (["field1"] : List String))] kv.1 = some p ∧
          pfxOf q p = true) ∧
      (∀ kv ∈ [(("FIELD1" : String), (some "x" : Option String))], ∀ p q,
        alGet [(("FIELD1" : String), (["field1"] : List String))] kv.1 = some p →
        pfxOf q p = true → q ≠ [] → getPath proto q ≠ none) :=
  c6_reshape oneFieldSchema [("FIELD1", ["field1"])] [("FIELD1", some "x")]
    rfl (by decide) (by decide)
